import Mathlib

/-!
Verification development for the "Philosophy Resurrected" Flask application
(`src/app.py`): an encrypted blob store for uploaded assets plus a
position-ordered catalog (albums, tracks, videos, media, homepage layout)
backed by SQLite.

The embedding is shallow:
* filenames and other strings are `List Char`;
* file contents are `List Nat` (byte sequences);
* the uploads directory is an association list from (OS-resolved) relative
  path to stored byte content;
* the Fernet cipher is an abstract `Cipher` structure whose only law is that
  decryption inverts encryption (the guarantee the external library provides);
* the SQLite tables are Lean lists of rows kept in insertion (rowid) order,
  and `ORDER BY position ASC` is a stable sort on that list;
* the unbounded `while` loop in `save_upload` takes an explicit fuel
  parameter and returns `none` when the fuel runs out.

Python / werkzeug helpers (`os.path.normpath`, `os.path.splitext`,
`werkzeug.utils.secure_filename`, `str.strip`, `str.split`) are embedded
for POSIX semantics over ASCII text, since stored names are produced from
the ASCII-only alphabet `[A-Za-z0-9_.-]` that `secure_filename` keeps.
-/

/-- Byte strings: file contents as lists of byte values. -/
abbrev Bytes := List Nat

/-- The uploads directory: an association list from relative path
(as resolved by the OS, i.e. after `normpath`) to file content. -/
abbrev Store := List (List Char × Bytes)

/-- Look up a file in the uploads directory (`Path.exists` / `open(..., "rb")`). -/
def fsLookup : Store → List Char → Option Bytes
  | [], _ => none
  | (k, v) :: rest, n => if k = n then some v else fsLookup rest n

/-- Remove a file from the uploads directory (`Path.unlink`; removing an
absent name leaves the store unchanged, matching the `path.exists()` guard). -/
def fsErase : Store → List Char → Store
  | [], _ => []
  | (k, v) :: rest, n => if k = n then fsErase rest n else (k, v) :: fsErase rest n

/-- Python whitespace, as used by `str.split()` and `str.strip()`. -/
def isPyWs (c : Char) : Bool :=
  [' ', '\t', '\n', '\r', '\x0b', '\x0c'].contains c

/-- Drop characters satisfying `p` from both ends (`str.strip` family). -/
def stripWhile (p : Char → Bool) (s : List Char) : List Char :=
  ((s.dropWhile p).reverse.dropWhile p).reverse

/-- Python `str.strip()` with no argument: strip whitespace from both ends. -/
def pyStrip (s : List Char) : List Char := stripWhile isPyWs s

/-- Python `str.split()` with no argument: split on whitespace runs,
discarding empty groups. -/
def pySplit (s : List Char) : List (List Char) :=
  (List.splitOnP isPyWs s).filter (fun g => !g.isEmpty)

/-- Index of the last occurrence of `c` in `s` (Python `str.rfind`),
`none` when absent. -/
def rlast (c : Char) (s : List Char) : Option Nat :=
  match s.reverse.findIdx? (· = c) with
  | none => none
  | some i => some (s.length - 1 - i)

/-- Does `s` contain `pat` as a contiguous subsequence (Python `pat in s`)? -/
def containsSeq (pat s : List Char) : Bool :=
  s.tails.any (fun t => pat.isPrefixOf t)

/-- Python `".." in s`: the substring check used by the traversal guard. -/
def hasDotDot (s : List Char) : Bool := containsSeq ['.', '.'] s

/-- Component normalisation loop of POSIX `os.path.normpath`: `acc` holds the
kept components in reverse; `absN` is the number of initial slashes. -/
def normComps (absN : Nat) : List (List Char) → List (List Char) → List (List Char)
  | acc, [] => acc.reverse
  | acc, c :: rest =>
    if c = [] ∨ c = ['.'] then normComps absN acc rest
    else if c = ['.', '.'] then
      if (absN = 0 ∧ acc = []) ∨ acc.head? = some ['.', '.'] then
        normComps absN (c :: acc) rest
      else if acc = [] then normComps absN acc rest
      else normComps absN acc.tail rest
    else normComps absN (c :: acc) rest

/-- POSIX `os.path.normpath`: collapse empty and `.` components, resolve `..`
against preceding components, keep leading `..` on relative paths, and
preserve one or exactly two initial slashes. -/
def normpath (s : List Char) : List Char :=
  if s = [] then ['.']
  else
    let absN : Nat :=
      if ['/', '/', '/'].isPrefixOf s then 1
      else if ['/', '/'].isPrefixOf s then 2
      else if ['/'].isPrefixOf s then 1
      else 0
    let body := List.intercalate ['/'] (normComps absN [] (List.splitOn '/' s))
    let res := List.replicate absN '/' ++ body
    if res = [] then ['.'] else res

/-- POSIX `os.path.splitext`: split at the last dot of the final path
component, unless every character between the last separator and that dot is
itself a dot (so `.bashrc` has no extension). -/
def splitext (p : List Char) : List Char × List Char :=
  let fnameIdx : Nat :=
    match rlast '/' p with
    | none => 0
    | some i => i + 1
  match rlast '.' p with
  | none => (p, [])
  | some d =>
    if fnameIdx ≤ d then
      if ((p.drop fnameIdx).take (d - fnameIdx)).any (fun c => c != '.') then
        (p.take d, p.drop d)
      else (p, [])
    else (p, [])

/-- Characters kept by werkzeug's `_filename_ascii_strip_re`: `[A-Za-z0-9_.-]`. -/
def secureKeep (c : Char) : Bool :=
  c.isAlpha || c.isDigit || c == '_' || c == '.' || c == '-'

/-- werkzeug `secure_filename` (POSIX): drop non-ASCII (modelling
NFKD-normalise-then-ASCII-encode, an identity on ASCII input), turn the path
separator into a space, join the whitespace-split words with underscores,
keep only `[A-Za-z0-9_.-]`, and strip leading/trailing dots and underscores. -/
def secure_filename (s : List Char) : List Char :=
  let ascii := s.filter (fun c => decide (c.toNat < 128))
  let replaced := ascii.map (fun c => if c = '/' then ' ' else c)
  let joined := List.intercalate ['_'] (pySplit replaced)
  let kept := joined.filter secureKeep
  stripWhile (['.', '_'].contains ·) kept

/-- `ALLOWED_IMAGE` from `src/app.py`. -/
def ALLOWED_IMAGE : List (List Char) :=
  ["png".data, "jpg".data, "jpeg".data, "gif".data, "svg".data, "webp".data]

/-- `ALLOWED_AUDIO` from `src/app.py`. -/
def ALLOWED_AUDIO : List (List Char) :=
  ["mp3".data, "wav".data, "ogg".data, "m4a".data]

/-- `ALLOWED_VIDEO` from `src/app.py`. -/
def ALLOWED_VIDEO : List (List Char) :=
  ["mp4".data, "webm".data, "mov".data, "ogg".data]

/-- `filename.rsplit(".", 1)[-1].lower() if "." in filename else ""`. -/
def extOf (filename : List Char) : List Char :=
  match rlast '.' filename with
  | none => []
  | some i => (filename.drop (i + 1)).map Char.toLower

/-- `allowed_file` from `src/app.py`: extension allow-list per kind. -/
def allowed_file (filename kind : List Char) : Bool :=
  let ext := extOf filename
  if kind = "image".data then decide (ext ∈ ALLOWED_IMAGE)
  else if kind = "audio".data then decide (ext ∈ ALLOWED_AUDIO)
  else if kind = "video".data then decide (ext ∈ ALLOWED_VIDEO)
  else false

/-- An incoming multipart file: original client filename plus content bytes. -/
structure UploadFile where
  filename : List Char
  content : Bytes

/-- The process-wide Fernet cipher: symmetric encryption with fallible
decryption (decryption raises on tampered/truncated ciphertext, modelled by
`Option`), whose library contract is that decrypting an encryption returns
the original bytes. -/
structure Cipher where
  encrypt : Bytes → Bytes
  decrypt : Bytes → Option Bytes
  decrypt_encrypt : ∀ b, decrypt (encrypt b) = some b

/-- Decimal rendering of the collision counter (Python f-string `{counter}`). -/
def digitChar (n : Nat) : Char :=
  match n % 10 with
  | 0 => '0'
  | 1 => '1'
  | 2 => '2'
  | 3 => '3'
  | 4 => '4'
  | 5 => '5'
  | 6 => '6'
  | 7 => '7'
  | 8 => '8'
  | _ => '9'

/-- Worker for `natToChars`, structurally recursive on a fuel bound
(`fuel = n` always suffices because `n / 10 < n` for `n ≥ 10`). -/
def natToCharsGo : Nat → Nat → List Char
  | 0, n => [digitChar n]
  | fuel + 1, n =>
    if n < 10 then [digitChar n]
    else natToCharsGo fuel (n / 10) ++ [digitChar (n % 10)]

/-- Decimal digits of `n`, most significant first. -/
def natToChars (n : Nat) : List Char := natToCharsGo n n

/-- The `while save_path.exists()` loop of `save_upload`: try the current
candidate name, and on collision move to `f"{base}_{counter}{ext}"` with the
next counter. `fuel` bounds the number of collisions the model resolves;
the Python loop is unbounded, so `none` marks exhausted fuel only. -/
def findFreeName (fs : Store) (base ext : List Char) :
    List Char → Nat → Nat → Option (List Char)
  | cand, _, 0 =>
    match fsLookup fs cand with
    | none => some cand
    | some _ => none
  | cand, counter, fuel + 1 =>
    match fsLookup fs cand with
    | none => some cand
    | some _ =>
      findFreeName fs base ext (base ++ '_' :: (natToChars counter ++ ext))
        (counter + 1) fuel

/-- `save_upload` from `src/app.py`: sanitise the client filename, resolve
stored-name collisions by numeric suffixing, encrypt the content and write it
under the chosen stored name. Returns the stored name (or `none` when the
sanitised name is empty) together with the updated uploads directory. -/
def save_upload (C : Cipher) (fuel : Nat) (file : UploadFile) (fs : Store) :
    Option (List Char) × Store :=
  let filename := secure_filename file.filename
  if filename = [] then (none, fs)
  else
    let base := (splitext filename).1
    let ext := (splitext filename).2
    match findFreeName fs base ext filename 1 fuel with
    | none => (none, fs)
    | some name => (some name, (name, C.encrypt file.content) :: fs)

/-- Outcome of `GET /uploads/<filename>`. -/
inductive GetResult where
  | notFound : GetResult
  | corrupt : GetResult
  | ok : Bytes → GetResult
deriving DecidableEq

/-- `uploaded_file` from `src/app.py`: normalise the requested name, reject
names whose normalised form still contains the substring `..` (HTTP 404),
404 when the file is absent, decrypt and serve otherwise; a decryption
failure is HTTP 500 (`corrupt`). -/
def uploaded_file (C : Cipher) (fs : Store) (filename : List Char) : GetResult :=
  let safe := normpath filename
  if hasDotDot safe then GetResult.notFound
  else
    match fsLookup fs safe with
    | none => GetResult.notFound
    | some enc =>
      match C.decrypt enc with
      | some data => GetResult.ok data
      | none => GetResult.corrupt

/-- `delete_file_if_exists` from `src/app.py`: a falsy (empty) name is a
no-op; otherwise unlink the file at the joined path when it exists (the OS
resolves the path, hence `normpath`). No traversal check is performed. -/
def delete_file_if_exists (fs : Store) (filename : List Char) : Store :=
  if filename = [] then fs
  else fsErase fs (normpath filename)

/-- A catalog row. SQLite rows are column dictionaries; one Lean structure
carries the union of the columns the five tables use (unused fields keep
their defaults). `created_at` timestamps are not modelled. The nullable
`cover_path` column conflates SQL NULL with the empty string, which no
claim distinguishes. -/
structure Row where
  id : Nat := 0
  pos : Int := 0
  title : List Char := []
  description : List Char := []
  file_path : List Char := []
  thumbnail_path : List Char := []
  kind : List Char := []
  album_id : Option Nat := none
  typ : List Char := []
  reference_id : Option Nat := none
deriving DecidableEq

/-- The SQLite database: the five tables in rowid (insertion) order, plus the
next rowid per table (SQLite assigns `lastrowid` as max-so-far + 1). -/
structure DB where
  albums : List Row := []
  tracks : List Row := []
  videos : List Row := []
  media : List Row := []
  layout : List Row := []
  nextAlbumId : Nat := 1
  nextTrackId : Nat := 1
  nextVideoId : Nat := 1
  nextMediaId : Nat := 1
  nextLayoutId : Nat := 1
deriving DecidableEq

/-- `SELECT COALESCE(MAX(position), -1) + 1` over a set of rows:
0 when the scope is empty, max position + 1 otherwise. -/
def nextPos (rows : List Row) : Int :=
  (match rows.map Row.pos with
   | [] => -1
   | p :: ps => ps.foldl max p) + 1

/-- Full application state: uploads directory plus database. The admin PIN
gate (`check_pin`) in front of every mutating route is an authentication
collaborator outside this core; the model takes authorised requests. -/
structure AppState where
  fs : Store := []
  db : DB := {}
deriving DecidableEq

/-- The comparison `ORDER BY position ASC` sorts by. -/
def posLe (a b : Row) : Prop := a.pos ≤ b.pos

instance : DecidableRel posLe := fun a b => inferInstanceAs (Decidable (a.pos ≤ b.pos))

instance : IsTotal Row posLe := ⟨fun a b => Int.le_total a.pos b.pos⟩

instance : IsTrans Row posLe := ⟨fun _ _ _ h1 h2 => le_trans h1 h2⟩

/-- `ORDER BY position ASC`: the SQLite scan visits rows in rowid order and
the sort is modelled as stable, so rows with equal positions come back in
insertion order. -/
def list_ordered (rows : List Row) : List Row :=
  List.insertionSort posLe rows

/-- Outcome of `POST /api/upload`. -/
inductive UploadOutcome where
  | noFile
  | emptyFilename
  | notAllowed
  | saveFailed
  | ok : List Char → Nat → UploadOutcome
deriving DecidableEq

/-- `api_upload` from `src/app.py`: reject a missing file, an empty client
filename, or a disallowed extension for the requested kind, all before any
write; then store the encrypted bytes and insert a `media` row. The media
row is inserted with the literal position 0. -/
def api_upload (C : Cipher) (fuel : Nat) (file? : Option UploadFile)
    (kind : List Char) (st : AppState) : UploadOutcome × AppState :=
  match file? with
  | none => (UploadOutcome.noFile, st)
  | some f =>
    if f.filename = [] then (UploadOutcome.emptyFilename, st)
    else if allowed_file f.filename kind then
      match save_upload C fuel f st.fs with
      | (none, fs') => (UploadOutcome.saveFailed, { st with fs := fs' })
      | (some name, fs') =>
        let db := st.db
        let row : Row :=
          { id := db.nextMediaId, pos := 0, title := f.filename,
            file_path := name, kind := kind }
        (UploadOutcome.ok name db.nextMediaId,
         { fs := fs',
           db := { db with media := db.media ++ [row],
                           nextMediaId := db.nextMediaId + 1 } })
    else (UploadOutcome.notAllowed, st)

/-- Outcome of the add-entity routes: a 400 validation error or success with
the new rowid. -/
inductive ApiOutcome where
  | err
  | ok : Nat → ApiOutcome
deriving DecidableEq

/-- `api_add_album` from `src/app.py`: an allow-listed cover upload is stored
FIRST (mutating the uploads directory), and only then is the stripped title
checked; an empty title returns a validation error without touching the
database. A successful insert gets position `COALESCE(MAX(position),-1)+1`.
A failed cover save (`save_upload` returning `None`) is conflated with the
empty cover string, which no claim distinguishes. -/
def api_add_album (C : Cipher) (fuel : Nat) (titleRaw descRaw : List Char)
    (cover_file : Option UploadFile) (st : AppState) : ApiOutcome × AppState :=
  let title := pyStrip titleRaw
  let description := pyStrip descRaw
  let coverfs : List Char × Store :=
    match cover_file with
    | some cf =>
      if allowed_file cf.filename "image".data then
        match save_upload C fuel cf st.fs with
        | (some n, fs') => (n, fs')
        | (none, fs') => ([], fs')
      else ([], st.fs)
    | none => ([], st.fs)
  let fs1 := coverfs.2
  if title = [] then (ApiOutcome.err, { st with fs := fs1 })
  else
    let db := st.db
    let row : Row :=
      { id := db.nextAlbumId, pos := nextPos db.albums, title := title,
        description := description, file_path := coverfs.1 }
    (ApiOutcome.ok db.nextAlbumId,
     { fs := fs1,
       db := { db with albums := db.albums ++ [row],
                       nextAlbumId := db.nextAlbumId + 1 } })

/-- `api_add_track` from `src/app.py`: requires `album_id`, a non-empty
stripped title and a non-empty stripped file reference (no upload happens
here); the new track's position is scoped to its album
(`... FROM tracks WHERE album_id = ?`). The form's `album_id` string is
modelled as `Option Nat` with only a missing value falsy, faithful for
SQLite rowids (which start at 1). -/
def api_add_track (album_id : Option Nat) (titleRaw fileRaw : List Char)
    (st : AppState) : ApiOutcome × AppState :=
  let title := pyStrip titleRaw
  let file := pyStrip fileRaw
  if album_id = none ∨ title = [] ∨ file = [] then (ApiOutcome.err, st)
  else
    let db := st.db
    let scope := db.tracks.filter (fun t => decide (t.album_id = album_id))
    let row : Row :=
      { id := db.nextTrackId, pos := nextPos scope, title := title,
        file_path := file, album_id := album_id }
    (ApiOutcome.ok db.nextTrackId,
     { st with db := { db with tracks := db.tracks ++ [row],
                               nextTrackId := db.nextTrackId + 1 } })

/-- `api_add_video` from `src/app.py`: like `api_add_album`, an allow-listed
video upload is stored BEFORE the `title`/`file` validation; an empty title
(or no stored file) then returns a validation error without a database
insert. `file` starts as the empty string and is falsy exactly when no
allow-listed upload was stored (a `None` from `save_upload` is conflated
with the empty string). -/
def api_add_video (C : Cipher) (fuel : Nat) (titleRaw descRaw : List Char)
    (video_file : Option UploadFile) (thumbRaw : List Char) (st : AppState) :
    ApiOutcome × AppState :=
  let title := pyStrip titleRaw
  let description := pyStrip descRaw
  let filefs : List Char × Store :=
    match video_file with
    | some vf =>
      if allowed_file vf.filename "video".data then
        match save_upload C fuel vf st.fs with
        | (some n, fs') => (n, fs')
        | (none, fs') => ([], fs')
      else ([], st.fs)
    | none => ([], st.fs)
  let file := filefs.1
  let fs1 := filefs.2
  let thumbnail := pyStrip thumbRaw
  if title = [] ∨ file = [] then (ApiOutcome.err, { st with fs := fs1 })
  else
    let db := st.db
    let row : Row :=
      { id := db.nextVideoId, pos := nextPos db.videos, title := title,
        description := description, file_path := file,
        thumbnail_path := thumbnail }
    (ApiOutcome.ok db.nextVideoId,
     { fs := fs1,
       db := { db with videos := db.videos ++ [row],
                       nextVideoId := db.nextVideoId + 1 } })

/-- `api_add_layout_block` from `src/app.py`: always inserts a layout row at
the next position (no validation of the block type). -/
def api_add_layout_block (block_type : List Char) (ref_id : Option Nat)
    (st : AppState) : Nat × AppState :=
  let db := st.db
  let row : Row :=
    { id := db.nextLayoutId, pos := nextPos db.layout, typ := block_type,
      reference_id := ref_id }
  (db.nextLayoutId,
   { st with db := { db with layout := db.layout ++ [row],
                             nextLayoutId := db.nextLayoutId + 1 } })

/-- Outcome of `POST /api/set_featured_video`. -/
inductive FeaturedOutcome where
  | videoIdRequired
  | videoNotFound
  | success
deriving DecidableEq

/-- `api_set_featured_video` from `src/app.py`: 400 on a missing id, 404 when
no video row has that id; otherwise update the first `featured_video` layout
row if one exists (`fetchone` on the scan), else insert one at the next
position. -/
def api_set_featured_video (video_id : Option Nat) (st : AppState) :
    FeaturedOutcome × AppState :=
  match video_id with
  | none => (FeaturedOutcome.videoIdRequired, st)
  | some vid =>
    let db := st.db
    match db.videos.find? (fun r => decide (r.id = vid)) with
    | none => (FeaturedOutcome.videoNotFound, st)
    | some _ =>
      match db.layout.find? (fun r => decide (r.typ = "featured_video".data)) with
      | some row =>
        (FeaturedOutcome.success,
         { st with db :=
            { db with layout := db.layout.map (fun r =>
                if r.id = row.id then { r with reference_id := some vid } else r) } })
      | none =>
        let newRow : Row :=
          { id := db.nextLayoutId, pos := nextPos db.layout,
            typ := "featured_video".data, reference_id := some vid }
        (FeaturedOutcome.success,
         { st with db := { db with layout := db.layout ++ [newRow],
                                   nextLayoutId := db.nextLayoutId + 1 } })

/-- Outcome of `POST /api/reorder`. -/
inductive ReorderOutcome where
  | invalidType
  | albumIdRequired
  | success
deriving DecidableEq

/-- The sequential `UPDATE ... SET position = ? WHERE id = ?` loop of
`api_reorder`: one update per `(pos, item_id)` pair, in submission order
(`matchRow` carries the optional `AND album_id = ?` scope condition). -/
def applyOrder (matchRow : Nat → Row → Bool) :
    List (Nat × Nat) → List Row → List Row
  | [], rows => rows
  | (pos, iid) :: rest, rows =>
    applyOrder matchRow rest
      (rows.map (fun r => if matchRow iid r then { r with pos := (pos : Int) } else r))

/-- `api_reorder` from `src/app.py`: reject an unknown collection name,
reject `tracks` without an `album_id` (both before any update), then set
each listed id's position to its index in the submitted order; tracks are
additionally matched on the album scope. -/
def api_reorder (typ : List Char) (order : List Nat) (album_id : Option Nat)
    (st : AppState) : ReorderOutcome × AppState :=
  if typ ∉ ["albums".data, "tracks".data, "videos".data, "media".data,
             "homepage_layout".data] then
    (ReorderOutcome.invalidType, st)
  else if typ = "tracks".data ∧ album_id = none then
    (ReorderOutcome.albumIdRequired, st)
  else
    let pairs := order.enum
    let db := st.db
    let db' :=
      if typ = "albums".data then
        { db with albums := applyOrder (fun i r => decide (r.id = i)) pairs db.albums }
      else if typ = "tracks".data then
        let trackMatch : Nat → Row → Bool :=
          fun i r => decide (r.id = i ∧ r.album_id = album_id)
        { db with tracks := applyOrder trackMatch pairs db.tracks }
      else if typ = "videos".data then
        { db with videos := applyOrder (fun i r => decide (r.id = i)) pairs db.videos }
      else if typ = "media".data then
        { db with media := applyOrder (fun i r => decide (r.id = i)) pairs db.media }
      else
        { db with layout := applyOrder (fun i r => decide (r.id = i)) pairs db.layout }
    (ReorderOutcome.success, { st with db := db' })

/-- `api_get_albums` from `src/app.py`: albums in position order, each paired
with its tracks in position order (`WHERE album_id = ? ORDER BY position`). -/
def api_get_albums (db : DB) : List (Row × List Row) :=
  (list_ordered db.albums).map (fun alb =>
    (alb, list_ordered (db.tracks.filter (fun t => decide (t.album_id = some alb.id)))))

/-- A concrete cipher satisfying the Fernet contract, used to instantiate
closed statements (the application's actual key is process-specific). -/
def trivialCipher : Cipher where
  encrypt b := b.map (fun x => x + 1)
  decrypt b := some (b.map (fun x => x - 1))
  decrypt_encrypt b := by
    induction b with
    | nil => rfl
    | cons x xs ih => simpa using ih

/-- Number of `featured_video` rows in the homepage layout. -/
def countFeatured (l : List Row) : Nat :=
  (l.filter (fun r => decide (r.typ = "featured_video".data))).length

/-- The table `api_reorder` dispatches to for a given collection name. -/
def tableOf (typ : List Char) (db : DB) : List Row :=
  if typ = "albums".data then db.albums
  else if typ = "tracks".data then db.tracks
  else if typ = "videos".data then db.videos
  else if typ = "media".data then db.media
  else db.layout

/-- The scope condition of a reorder: tracks are additionally matched on
their album id, every other collection is matched on id alone. -/
def rowScope (typ : List Char) (album_id : Option Nat) (r : Row) : Bool :=
  if typ = "tracks".data then decide (r.album_id = album_id) else true

/-- The rows of a collection visible in a given scope (for tracks, the rows
of one album — the list the track pages display). -/
def scopedRows (typ : List Char) (album_id : Option Nat) (db : DB) : List Row :=
  (tableOf typ db).filter (rowScope typ album_id)

/-- Net effect of the sequential reorder updates on a single row. -/
def stepAll (m : Nat → Row → Bool) : List (Nat × Nat) → Row → Row
  | [], r => r
  | (p, i) :: rest, r => stepAll m rest (if m i r then { r with pos := (p : Int) } else r)

/-- A concrete three-track album used to instantiate closed statements. -/
def c8St : AppState :=
  { db := { tracks := [
      { id := 1, pos := 0, album_id := some 1 },
      { id := 2, pos := 1, album_id := some 1 },
      { id := 3, pos := 2, album_id := some 1 }] } }

example : secure_filename "a..b.png".data = "a..b.png".data := by decide
example : secure_filename "../../x.png".data = "x.png".data := by decide
example : normpath "a/../b".data = "b".data := by decide
example : normpath "../x".data = "../x".data := by decide
example : splitext "a.png".data = ("a".data, ".png".data) := by decide
example : extOf "foo.PnG".data = "png".data := by decide
example : allowed_file "foo.png".data "image".data = true := by decide
example : allowed_file "foo".data "image".data = false := by decide
example : natToChars 120 = ['1', '2', '0'] := by decide

theorem fsLookup_erase_self (fs : Store) (k : List Char) :
    fsLookup (fsErase fs k) k = none := by
  induction fs with
  | nil => rfl
  | cons kv rest ih =>
    obtain ⟨k', v⟩ := kv
    by_cases h : k' = k
    · simpa [fsErase, h] using ih
    · simpa [fsErase, fsLookup, h] using ih

theorem fsErase_of_lookup_none (fs : Store) (k : List Char)
    (h : fsLookup fs k = none) : fsErase fs k = fs := by
  induction fs with
  | nil => rfl
  | cons kv rest ih =>
    obtain ⟨k', v⟩ := kv
    by_cases hk : k' = k
    · simp [fsLookup, hk] at h
    · simp only [fsLookup, if_neg hk] at h
      simp [fsErase, hk, ih h]

/-- C9: the blob-store delete is idempotent (deleting an absent stored name
is a no-op, not an error), and for every non-empty stored name a delete
followed by a get yields NotFound. -/
theorem C9_delete_contract :
    (∀ (fs : Store) (name : List Char),
        fsLookup fs (normpath name) = none → delete_file_if_exists fs name = fs) ∧
    (∀ (C : Cipher) (fs : Store) (name : List Char), name ≠ [] →
        uploaded_file C (delete_file_if_exists fs name) name = GetResult.notFound) := by
  constructor
  · intro fs name h
    unfold delete_file_if_exists
    split
    · rfl
    · exact fsErase_of_lookup_none _ _ h
  · intro C fs name h
    rw [delete_file_if_exists, if_neg h]
    simp [uploaded_file, fsLookup_erase_self]

/-- Witness for C9 at a concrete store and names. -/
theorem C9_delete_contract_witness :
    delete_file_if_exists [("x".data, [1])] "y".data = [("x".data, [1])] ∧
    uploaded_file trivialCipher (delete_file_if_exists [("x".data, [1])] "x".data)
      "x".data = GetResult.notFound :=
  ⟨C9_delete_contract.1 [("x".data, [1])] "y".data (by decide),
   C9_delete_contract.2 trivialCipher [("x".data, [1])] "x".data (by decide)⟩

theorem rlast_eq_none_of_not_mem {c : Char} {s : List Char} (h : c ∉ s) :
    rlast c s = none := by
  have h' : s.reverse.findIdx? (fun x => decide (x = c)) = none :=
    List.findIdx?_eq_none_iff.mpr (by
      intro x hx
      simp only [decide_eq_false_iff_not]
      intro he
      exact h (he ▸ List.mem_reverse.mp hx))
  unfold rlast
  rw [h']

theorem extOf_of_no_dot {s : List Char} (h : '.' ∉ s) : extOf s = [] := by
  unfold extOf
  rw [rlast_eq_none_of_not_mem h]

theorem allowed_file_of_no_dot (s kind : List Char) (h : '.' ∉ s) :
    allowed_file s kind = false := by
  simp only [allowed_file, extOf_of_no_dot h]
  split
  · rfl
  · split
    · rfl
    · split
      · rfl
      · rfl

/-- C10: a filename without a dot has no extension, so `allowed_file`
rejects it for every kind, and `api_upload` returns a validation error with
the state unchanged: nothing is stored and no media row is inserted. -/
theorem C10_no_extension_rejected :
    ∀ (filename kind : List Char), '.' ∉ filename →
      allowed_file filename kind = false ∧
      ∀ (C : Cipher) (fuel : Nat) (content : Bytes) (st : AppState),
        (api_upload C fuel (some ⟨filename, content⟩) kind st).2 = st ∧
        ∀ (stored : List Char) (mid : Nat),
          (api_upload C fuel (some ⟨filename, content⟩) kind st).1
            ≠ UploadOutcome.ok stored mid := by
  intro filename kind h
  have ha := allowed_file_of_no_dot filename kind h
  refine ⟨ha, ?_⟩
  intro C fuel content st
  by_cases hf : filename = []
  · subst hf
    exact ⟨rfl, by intro stored mid; simp [api_upload]⟩
  · exact ⟨by simp [api_upload, hf, ha], by intro stored mid; simp [api_upload, hf, ha]⟩

/-- Witness for C10 at a concrete extension-less filename. -/
theorem C10_no_extension_rejected_witness :
    allowed_file "noext".data "image".data = false ∧
    (api_upload trivialCipher 1 (some ⟨"noext".data, [1]⟩) "image".data {}).2 = {} :=
  ⟨(C10_no_extension_rejected "noext".data "image".data (by decide)).1,
   ((C10_no_extension_rejected "noext".data "image".data (by decide)).2
      trivialCipher 1 [1] {}).1⟩

/-- C3 fails on the code: `delete_file_if_exists` performs no traversal
check — deleting the name `../x` removes the file at the resolved path
outside the uploads directory (the claim required rejection before any
filesystem access) — and `uploaded_file` checks `..` on the NORMALISED
name, so the traversal-shaped name `a/../b` is not rejected either: it is
served from the resolved path `b`. -/
theorem C3_counterexample :
    delete_file_if_exists [("../x".data, [1])] "../x".data = [] ∧
    uploaded_file trivialCipher [("b".data, [6])] "a/../b".data
      = GetResult.ok [5] := by decide

/-- C3 amended: `uploaded_file` rejects, before any filesystem access,
exactly those names whose POSIX-normalised form still contains `..`;
`delete_file_if_exists` applies no traversal guard at all and unlinks the
file at the OS-resolved path of any non-empty name. -/
theorem C3_amended :
    (∀ (C : Cipher) (fs : Store) (name : List Char),
        hasDotDot (normpath name) = true →
        uploaded_file C fs name = GetResult.notFound) ∧
    (∀ (fs : Store) (name : List Char), name ≠ [] →
        delete_file_if_exists fs name = fsErase fs (normpath name)) := by
  constructor
  · intro C fs name h
    simp [uploaded_file, h]
  · intro fs name h
    simp [delete_file_if_exists, h]

/-- Witness for the amended C3 at the concrete name `../x`. -/
theorem C3_amended_witness :
    uploaded_file trivialCipher [("../x".data, [1])] "../x".data
      = GetResult.notFound ∧
    delete_file_if_exists [("../x".data, [1])] "../x".data
      = fsErase [("../x".data, [1])] (normpath "../x".data) :=
  ⟨C3_amended.1 trivialCipher [("../x".data, [1])] "../x".data (by decide),
   C3_amended.2 [("../x".data, [1])] "../x".data (by decide)⟩

/-- C1 fails on the code: `a..b.png` passes the image allow-list and
`secure_filename` keeps it verbatim, so `save_upload` stores under the name
`a..b.png`; but `uploaded_file` rejects every name containing `..` as a
substring, so retrieving the returned stored name yields NotFound instead
of the original bytes. -/
theorem C1_counterexample :
    allowed_file "a..b.png".data "image".data = true ∧
    (save_upload trivialCipher 1 ⟨"a..b.png".data, [7]⟩ []).1
      = some "a..b.png".data ∧
    uploaded_file trivialCipher (save_upload trivialCipher 1 ⟨"a..b.png".data, [7]⟩ []).2
      "a..b.png".data = GetResult.notFound := by decide

/-- C4 fails on the code: `api_add_album` saves an allow-listed cover BEFORE
validating the title, so an empty-title request returns a validation error
yet a cover asset has been stored in the blob store. -/
theorem C4_counterexample :
    (api_add_album trivialCipher 1 [] [] (some ⟨"c.png".data, [1]⟩) {}).1
      = ApiOutcome.err ∧
    (api_add_album trivialCipher 1 [] [] (some ⟨"c.png".data, [1]⟩) {}).2.fs
      = [("c.png".data, [2])] := by decide

/-- C4 amended: an empty (stripped) title makes `api_add_album` and
`api_add_video` fail with a validation error and insert no catalog row, but
a provided allow-listed cover/video asset has already been stored before
the title check (the database is untouched; the blob store may not be). -/
theorem C4_amended :
    ∀ (C : Cipher) (fuel : Nat) (titleRaw descRaw : List Char)
      (cover vfile : Option UploadFile) (thumbRaw : List Char) (st : AppState),
      pyStrip titleRaw = [] →
      (api_add_album C fuel titleRaw descRaw cover st).1 = ApiOutcome.err ∧
      (api_add_album C fuel titleRaw descRaw cover st).2.db = st.db ∧
      (api_add_video C fuel titleRaw descRaw vfile thumbRaw st).1 = ApiOutcome.err ∧
      (api_add_video C fuel titleRaw descRaw vfile thumbRaw st).2.db = st.db := by
  intro C fuel titleRaw descRaw cover vfile thumbRaw st h
  refine ⟨?_, ?_, ?_, ?_⟩ <;> simp [api_add_album, api_add_video, h]

/-- Witness for the amended C4: a whitespace title with a valid cover. -/
theorem C4_amended_witness :
    (api_add_album trivialCipher 1 " ".data [] (some ⟨"c.png".data, [1]⟩) {}).1
      = ApiOutcome.err ∧
    (api_add_album trivialCipher 1 " ".data [] (some ⟨"c.png".data, [1]⟩) {}).2.db
      = ({} : AppState).db ∧
    (api_add_video trivialCipher 1 " ".data [] (some ⟨"v.mp4".data, [1]⟩) [] {}).1
      = ApiOutcome.err ∧
    (api_add_video trivialCipher 1 " ".data [] (some ⟨"v.mp4".data, [1]⟩) [] {}).2.db
      = ({} : AppState).db :=
  C4_amended trivialCipher 1 " ".data [] (some ⟨"c.png".data, [1]⟩)
    (some ⟨"v.mp4".data, [1]⟩) [] {} (by decide)

/-- C5 fails on the code for the upload-intake operation: with one media row
at position 0, max+1 would be 1, but `api_upload` inserts the new media row
with the literal position 0. -/
theorem C5_counterexample :
    nextPos [{ id := 1, pos := 0 }] = 1 ∧
    ((api_upload trivialCipher 1 (some ⟨"a.png".data, [7]⟩) "image".data
        { fs := [], db := { media := [{ id := 1, pos := 0 }], nextMediaId := 2 } }
      ).2.db.media.map Row.pos) = [0, 0] := by decide

/-- C5 amended: every successful catalog insert assigns
position = `COALESCE(MAX(position),-1)+1` over its scope (tracks scoped to
their album), EXCEPT the media row inserted by `api_upload`, which always
gets position 0. -/
theorem C5_amended :
    ∀ (C : Cipher) (fuel : Nat) (st : AppState),
      (∀ titleRaw descRaw cover aid,
          (api_add_album C fuel titleRaw descRaw cover st).1 = ApiOutcome.ok aid →
          ∃ r : Row, (api_add_album C fuel titleRaw descRaw cover st).2.db.albums
              = st.db.albums ++ [r] ∧ r.pos = nextPos st.db.albums) ∧
      (∀ album_id titleRaw fileRaw tid,
          (api_add_track album_id titleRaw fileRaw st).1 = ApiOutcome.ok tid →
          ∃ r : Row, (api_add_track album_id titleRaw fileRaw st).2.db.tracks
              = st.db.tracks ++ [r] ∧
            r.pos = nextPos (st.db.tracks.filter
              (fun t => decide (t.album_id = album_id)))) ∧
      (∀ titleRaw descRaw vfile thumbRaw vid,
          (api_add_video C fuel titleRaw descRaw vfile thumbRaw st).1
              = ApiOutcome.ok vid →
          ∃ r : Row, (api_add_video C fuel titleRaw descRaw vfile thumbRaw st).2.db.videos
              = st.db.videos ++ [r] ∧ r.pos = nextPos st.db.videos) ∧
      (∀ block_type ref_id,
          ∃ r : Row, (api_add_layout_block block_type ref_id st).2.db.layout
              = st.db.layout ++ [r] ∧ r.pos = nextPos st.db.layout) ∧
      (∀ file? kind stored mid,
          (api_upload C fuel file? kind st).1 = UploadOutcome.ok stored mid →
          ∃ r : Row, (api_upload C fuel file? kind st).2.db.media
              = st.db.media ++ [r] ∧ r.pos = 0) := by
  intro C fuel st
  refine ⟨?_, ?_, ?_, ?_, ?_⟩
  · intro titleRaw descRaw cover aid h
    by_cases ht : pyStrip titleRaw = []
    · simp [api_add_album, ht] at h
    · simp only [api_add_album, if_neg ht]
      exact ⟨_, rfl, rfl⟩
  · intro album_id titleRaw fileRaw tid h
    by_cases hc : album_id = none ∨ pyStrip titleRaw = [] ∨ pyStrip fileRaw = []
    · simp only [api_add_track, if_pos hc] at h
      exact absurd h (by simp)
    · simp only [api_add_track, if_neg hc]
      exact ⟨_, rfl, rfl⟩
  · intro titleRaw descRaw vfile thumbRaw vid h
    by_cases hc : pyStrip titleRaw = [] ∨
        (match vfile with
         | some vf =>
           if allowed_file vf.filename "video".data then
             match save_upload C fuel vf st.fs with
             | (some n, fs') => (n, fs')
             | (none, fs') => ([], fs')
           else ([], st.fs)
         | none => ([], st.fs)).1 = []
    · simp only [api_add_video, if_pos hc] at h
      exact absurd h (by simp)
    · simp only [api_add_video, if_neg hc]
      exact ⟨_, rfl, rfl⟩
  · intro block_type ref_id
    exact ⟨_, rfl, rfl⟩
  · intro file? kind stored mid h
    match file? with
    | none => simp [api_upload] at h
    | some f =>
      by_cases hf : f.filename = []
      · simp [api_upload, hf] at h
      · by_cases ha : allowed_file f.filename kind
        · rcases hsv : save_upload C fuel f st.fs with ⟨name?, fs'⟩
          cases name? with
          | none => simp [api_upload, hf, ha, hsv] at h
          | some name =>
            simp only [api_upload, if_neg hf, if_pos ha, hsv]
            exact ⟨_, rfl, rfl⟩
        · simp [api_upload, hf, ha] at h

/-- Witness for the amended C5: a concrete successful album insert. -/
theorem C5_amended_witness :
    ∃ r : Row, (api_add_album trivialCipher 1 "t".data [] none {}).2.db.albums
        = ({} : AppState).db.albums ++ [r] ∧
      r.pos = nextPos ({} : AppState).db.albums :=
  (C5_amended trivialCipher 1 {}).1 "t".data [] none 1 (by decide)

theorem filter_eq_cons_of_find? {α : Type} {p : α → Bool} {l : List α} {x : α}
    (h : l.find? p = some x) : ∃ t, l.filter p = x :: t := by
  induction l with
  | nil => simp at h
  | cons a l ih =>
    by_cases hp : p a
    · rw [List.find?_cons_of_pos _ hp] at h
      cases h
      exact ⟨_, List.filter_cons_of_pos hp⟩
    · rw [List.find?_cons_of_neg _ (by simpa using hp)] at h
      simpa [List.filter_cons_of_neg, hp] using ih h

theorem set_featured_upsert (st : AppState) (v : Nat)
    (hinv : countFeatured st.db.layout ≤ 1)
    (hv : ∃ r ∈ st.db.videos, r.id = v) :
    countFeatured ((api_set_featured_video (some v) st).2).db.layout = 1 ∧
    (∀ r ∈ ((api_set_featured_video (some v) st).2).db.layout,
        r.typ = "featured_video".data → r.reference_id = some v) ∧
    ((api_set_featured_video (some v) st).2).db.videos = st.db.videos := by
  obtain ⟨rv, hrv, hrvid⟩ := hv
  cases hf : st.db.videos.find? (fun r => decide (r.id = v)) with
  | none =>
    rw [List.find?_eq_none] at hf
    exact absurd (by simpa using hf rv hrv) (by simp [hrvid])
  | some rv' =>
    cases hl : st.db.layout.find? (fun r => decide (r.typ = "featured_video".data)) with
    | none =>
      have hnone : ∀ r ∈ st.db.layout, ¬ r.typ = "featured_video".data := by
        intro r hr
        have := List.find?_eq_none.mp hl r hr
        simpa using this
      simp only [api_set_featured_video, hf, hl]
      refine ⟨?_, ?_, trivial⟩
      · unfold countFeatured
        rw [List.filter_append, List.filter_eq_nil_iff.mpr (by simpa using hnone)]
        simp
      · intro r hr hrt
        rcases List.mem_append.mp hr with h | h
        · exact absurd hrt (hnone r h)
        · rcases List.mem_singleton.mp h with rfl
          rfl
    | some row =>
      obtain ⟨t, hft⟩ := filter_eq_cons_of_find? hl
      have hone : st.db.layout.filter
          (fun r => decide (r.typ = "featured_video".data)) = [row] := by
        have hlen := hinv
        unfold countFeatured at hlen
        rw [hft] at hlen ⊢
        cases t with
        | nil => rfl
        | cons b t' => simp at hlen
      simp only [api_set_featured_video, hf, hl]
      have hpf : ∀ r : Row,
          (fun r : Row => decide (r.typ = "featured_video".data))
              (if r.id = row.id then { r with reference_id := some v } else r)
            = decide (r.typ = "featured_video".data) := by
        intro r
        by_cases h : r.id = row.id <;> simp [h]
      refine ⟨?_, ?_, trivial⟩
      · unfold countFeatured
        have hcg : List.filter
              ((fun r : Row => decide (r.typ = "featured_video".data)) ∘
                (fun r : Row =>
                  if r.id = row.id then { r with reference_id := some v } else r))
              st.db.layout
            = List.filter (fun r : Row => decide (r.typ = "featured_video".data))
                st.db.layout :=
          List.filter_congr (fun x _ => hpf x)
        rw [List.filter_map, hcg, hone]
        simp
      · intro r hr hrt
        rcases List.mem_map.mp hr with ⟨r0, hr0, rfl⟩
        by_cases h : r0.id = row.id
        · simp [h]
        · simp only [if_neg h] at hrt ⊢
          have hmem : r0 ∈ st.db.layout.filter
              (fun r => decide (r.typ = "featured_video".data)) :=
            List.mem_filter.mpr ⟨hr0, by simpa using hrt⟩
          rw [hone] at hmem
          exact absurd (congrArg Row.id (List.mem_singleton.mp hmem)) h

/-- C7: `set_featured_video` fails with NotFound (state unchanged) when the
video id does not exist; otherwise it upserts the single `featured_video`
layout entry, so starting from a layout satisfying the at-most-one
invariant, two calls with different existing video ids leave exactly one
`featured_video` entry, and it references the second id. -/
theorem C7_featured_video :
    ∀ (st : AppState) (v1 v2 : Nat),
      ((∀ r ∈ st.db.videos, r.id ≠ v1) →
          api_set_featured_video (some v1) st = (FeaturedOutcome.videoNotFound, st)) ∧
      (countFeatured st.db.layout ≤ 1 →
        (∃ r ∈ st.db.videos, r.id = v1) → (∃ r ∈ st.db.videos, r.id = v2) →
        v1 ≠ v2 →
        countFeatured ((api_set_featured_video (some v2)
            ((api_set_featured_video (some v1) st).2)).2).db.layout = 1 ∧
        ∀ r ∈ ((api_set_featured_video (some v2)
            ((api_set_featured_video (some v1) st).2)).2).db.layout,
          r.typ = "featured_video".data → r.reference_id = some v2) := by
  intro st v1 v2
  constructor
  · intro h
    have hf : st.db.videos.find? (fun r => decide (r.id = v1)) = none :=
      List.find?_eq_none.mpr (by intro x hx; simpa using h x hx)
    simp [api_set_featured_video, hf]
  · intro hinv h1 h2 hne
    obtain ⟨c1, _, hvids⟩ := set_featured_upsert st v1 hinv h1
    have h2' : ∃ r ∈ ((api_set_featured_video (some v1) st).2).db.videos,
        r.id = v2 := by rw [hvids]; exact h2
    obtain ⟨c2, hrefs2, _⟩ :=
      set_featured_upsert ((api_set_featured_video (some v1) st).2) v2
        (by rw [c1]) h2'
    exact ⟨c2, hrefs2⟩

/-- Witness for C7 at a concrete two-video state. -/
theorem C7_featured_video_witness :
    api_set_featured_video (some 9)
        { db := { videos := [{ id := 1 }, { id := 2 }] } } =
      (FeaturedOutcome.videoNotFound,
        { db := { videos := [{ id := 1 }, { id := 2 }] } }) ∧
    (countFeatured ((api_set_featured_video (some 2)
        ((api_set_featured_video (some 1)
          { db := { videos := [{ id := 1 }, { id := 2 }] } }).2)).2).db.layout = 1 ∧
      ∀ r ∈ ((api_set_featured_video (some 2)
          ((api_set_featured_video (some 1)
            { db := { videos := [{ id := 1 }, { id := 2 }] } }).2)).2).db.layout,
        r.typ = "featured_video".data → r.reference_id = some 2) :=
  ⟨(C7_featured_video { db := { videos := [{ id := 1 }, { id := 2 }] } } 9 9).1
      (by decide),
   (C7_featured_video { db := { videos := [{ id := 1 }, { id := 2 }] } } 1 2).2
      (by decide) (by decide) (by decide) (by decide)⟩

theorem findFreeName_zero (fs : Store) (base ext cand : List Char) (counter : Nat) :
    findFreeName fs base ext cand counter 0
      = match fsLookup fs cand with
        | none => some cand
        | some _ => none := rfl

theorem findFreeName_succ (fs : Store) (base ext cand : List Char) (counter fuel : Nat) :
    findFreeName fs base ext cand counter (fuel + 1)
      = match fsLookup fs cand with
        | none => some cand
        | some _ =>
          findFreeName fs base ext (base ++ '_' :: (natToChars counter ++ ext))
            (counter + 1) fuel := rfl

theorem findFreeName_fresh {fs : Store} {base ext cand name : List Char}
    {counter fuel : Nat}
    (h : findFreeName fs base ext cand counter fuel = some name) :
    fsLookup fs name = none := by
  induction fuel generalizing cand counter with
  | zero =>
    rw [findFreeName_zero] at h
    cases hc : fsLookup fs cand with
    | none => rw [hc] at h; injection h with h'; rw [← h']; exact hc
    | some v => rw [hc] at h; cases h
  | succ fuel ih =>
    rw [findFreeName_succ] at h
    cases hc : fsLookup fs cand with
    | none => rw [hc] at h; injection h with h'; rw [← h']; exact hc
    | some v => rw [hc] at h; exact ih h

theorem findFreeName_shape {fs : Store} {base ext cand name : List Char}
    {counter fuel : Nat}
    (h : findFreeName fs base ext cand counter fuel = some name) :
    name = cand ∨ ∃ k, counter ≤ k ∧ name = base ++ '_' :: (natToChars k ++ ext) := by
  induction fuel generalizing cand counter with
  | zero =>
    rw [findFreeName_zero] at h
    cases hc : fsLookup fs cand with
    | none => rw [hc] at h; injection h with h'; exact Or.inl h'.symm
    | some v => rw [hc] at h; cases h
  | succ fuel ih =>
    rw [findFreeName_succ] at h
    cases hc : fsLookup fs cand with
    | none => rw [hc] at h; injection h with h'; exact Or.inl h'.symm
    | some v =>
      rw [hc] at h
      rcases ih h with h1 | ⟨k, hk, he⟩
      · exact Or.inr ⟨counter, le_refl _, h1⟩
      · exact Or.inr ⟨k, by omega, he⟩

theorem findFreeName_occupied {fs : Store} {base ext cand name : List Char}
    {counter fuel : Nat}
    (h : findFreeName fs base ext cand counter fuel = some name)
    (hne : name ≠ cand) : ∃ v, fsLookup fs cand = some v := by
  cases hc : fsLookup fs cand with
  | none =>
    exfalso
    apply hne
    cases fuel with
    | zero => rw [findFreeName_zero, hc] at h; injection h with h'; exact h'.symm
    | succ fuel => rw [findFreeName_succ, hc] at h; injection h with h'; exact h'.symm
  | some v => exact ⟨v, rfl⟩

theorem save_upload_eq {C : Cipher} {fuel : Nat} {f : UploadFile} {fs fs' : Store}
    {name : List Char} (h : save_upload C fuel f fs = (some name, fs')) :
    secure_filename f.filename ≠ [] ∧
    findFreeName fs (splitext (secure_filename f.filename)).1
      (splitext (secure_filename f.filename)).2 (secure_filename f.filename) 1 fuel
      = some name ∧
    fs' = (name, C.encrypt f.content) :: fs := by
  by_cases hf : secure_filename f.filename = []
  · simp [save_upload, hf] at h
  · refine ⟨hf, ?_⟩
    simp only [save_upload, if_neg hf] at h
    cases hfind : findFreeName fs (splitext (secure_filename f.filename)).1
        (splitext (secure_filename f.filename)).2 (secure_filename f.filename) 1 fuel with
    | none => rw [hfind] at h; simp at h
    | some n =>
      rw [hfind] at h
      obtain ⟨h1, h2⟩ := Prod.mk.injEq .. ▸ h
      injection h1 with h1
      subst h1
      exact ⟨rfl, h2.symm⟩

/-- C2: `save_upload` never returns a stored name that already exists at the
time of the existence check (the returned name is fresh and becomes the key
of the new encrypted entry), and two sequential saves of the same original
filename return distinct stored names, the second carrying a numeric suffix
between the base name and the extension. -/
theorem C2_collision_free :
    (∀ (C : Cipher) (fuel : Nat) (f : UploadFile) (fs fs' : Store)
        (name : List Char),
        save_upload C fuel f fs = (some name, fs') →
        fsLookup fs name = none ∧ fs' = (name, C.encrypt f.content) :: fs) ∧
    (∀ (C : Cipher) (fuel1 fuel2 : Nat) (f g : UploadFile) (fs fs1 fs2 : Store)
        (n1 n2 : List Char),
        f.filename = g.filename →
        save_upload C fuel1 f fs = (some n1, fs1) →
        save_upload C fuel2 g fs1 = (some n2, fs2) →
        n1 ≠ n2 ∧ ∃ k, 1 ≤ k ∧
          n2 = (splitext (secure_filename g.filename)).1 ++ '_' ::
            (natToChars k ++ (splitext (secure_filename g.filename)).2)) := by
  constructor
  · intro C fuel f fs fs' name h
    obtain ⟨-, hfind, hfs⟩ := save_upload_eq h
    exact ⟨findFreeName_fresh hfind, hfs⟩
  · intro C fuel1 fuel2 f g fs fs1 fs2 n1 n2 hfg h1 h2
    obtain ⟨hne1, hfind1, hfs1⟩ := save_upload_eq h1
    obtain ⟨hne2, hfind2, hfs2⟩ := save_upload_eq h2
    have hmem : fsLookup fs1 n1 = some (C.encrypt f.content) := by
      rw [hfs1]; simp [fsLookup]
    have hfresh2 : fsLookup fs1 n2 = none := findFreeName_fresh hfind2
    have hne : n1 ≠ n2 := by
      intro he
      rw [he, hfresh2] at hmem
      cases hmem
    refine ⟨hne, ?_⟩
    have hocc : ∃ v, fsLookup fs1 (secure_filename g.filename) = some v := by
      by_cases hc : n1 = secure_filename g.filename
      · exact ⟨_, hc ▸ hmem⟩
      · rw [hfg] at hfind1
        obtain ⟨v, hv⟩ := findFreeName_occupied hfind1 hc
        refine ⟨v, ?_⟩
        rw [hfs1]
        simp only [fsLookup, if_neg hc]
        exact hv
    obtain ⟨v, hv⟩ := hocc
    cases fuel2 with
    | zero =>
      rw [findFreeName_zero, hv] at hfind2
      cases hfind2
    | succ fz =>
      rw [findFreeName_succ, hv] at hfind2
      rcases findFreeName_shape hfind2 with hsh | ⟨k, hk, he⟩
      · exact ⟨1, le_refl _, hsh⟩
      · exact ⟨k, by omega, he⟩

/-- Witness for C2: storing `a.png` twice into an empty store yields the
fresh names `a.png` and then `a_1.png`. -/
theorem C2_collision_free_witness :
    (fsLookup ([] : Store) "a.png".data = none ∧
      ([("a.png".data, [8])] : Store)
        = ("a.png".data, trivialCipher.encrypt [7]) :: []) ∧
    ("a.png".data ≠ "a_1.png".data ∧ ∃ k, 1 ≤ k ∧
      "a_1.png".data = (splitext (secure_filename "a.png".data)).1 ++ '_' ::
        (natToChars k ++ (splitext (secure_filename "a.png".data)).2)) :=
  ⟨C2_collision_free.1 trivialCipher 1 ⟨"a.png".data, [7]⟩ [] [("a.png".data, [8])]
      "a.png".data (by decide),
   C2_collision_free.2 trivialCipher 1 1 ⟨"a.png".data, [7]⟩ ⟨"a.png".data, [9]⟩
      [] [("a.png".data, [8])] [("a_1.png".data, [10]), ("a.png".data, [8])]
      "a.png".data "a_1.png".data rfl (by decide) (by decide)⟩

theorem mem_of_mem_stripWhile {p : Char → Bool} {s : List Char} {c : Char}
    (h : c ∈ stripWhile p s) : c ∈ s := by
  unfold stripWhile at h
  have h1 := List.mem_reverse.mp h
  have h2 := (List.dropWhile_sublist _).subset h1
  have h3 := List.mem_reverse.mp h2
  exact (List.dropWhile_sublist _).subset h3

theorem secureKeep_of_mem_secure_filename {s : List Char} {c : Char}
    (h : c ∈ secure_filename s) : secureKeep c = true := by
  simp only [secure_filename] at h
  exact List.of_mem_filter (mem_of_mem_stripWhile h)

theorem dropWhile_head?_false {α : Type} {p : α → Bool} {l : List α} {x : α}
    (h : (l.dropWhile p).head? = some x) : p x = false := by
  induction l with
  | nil => simp at h
  | cons a l ih =>
    rw [List.dropWhile_cons] at h
    by_cases hp : p a
    · rw [if_pos hp] at h
      exact ih h
    · rw [if_neg hp] at h
      injection h with h'
      subst h'
      exact Bool.eq_false_iff.mpr hp

theorem stripWhile_ne_of_all {p : Char → Bool} (s l : List Char)
    (hl : l ≠ []) (hall : ∀ c ∈ l, p c = true) : stripWhile p s ≠ l := by
  intro he
  have hu : (s.dropWhile p).reverse.dropWhile p = l.reverse := by
    have h' := congrArg List.reverse he
    simpa [stripWhile] using h'
  cases hx : l.reverse.head? with
  | none =>
    rw [List.head?_eq_none_iff] at hx
    exact hl (by simpa using congrArg List.reverse hx)
  | some x =>
    have hpx : p x = false := dropWhile_head?_false (by rw [hu]; exact hx)
    have hmem : x ∈ l := by
      cases hrev : l.reverse with
      | nil => rw [hrev] at hx; cases hx
      | cons y ys =>
        rw [hrev] at hx
        injection hx with h'
        subst h'
        exact List.mem_reverse.mp (by rw [hrev]; exact List.mem_cons_self _ _)
    rw [hall x hmem] at hpx
    cases hpx

theorem secure_filename_ne_dot (s : List Char) : secure_filename s ≠ ['.'] := by
  simp only [secure_filename]
  exact stripWhile_ne_of_all _ _ (by decide) (by decide)

theorem secure_filename_ne_dotdot (s : List Char) : secure_filename s ≠ ['.', '.'] := by
  simp only [secure_filename]
  exact stripWhile_ne_of_all _ _ (by decide) (by decide)

theorem digitChar_isDigit (n : Nat) : (digitChar n).isDigit = true := by
  unfold digitChar
  split <;> rfl

theorem natToCharsGo_digits :
    ∀ (fuel n : Nat) (c : Char), c ∈ natToCharsGo fuel n → c.isDigit = true := by
  intro fuel
  induction fuel with
  | zero =>
    intro n c hc
    rcases List.mem_singleton.mp hc with rfl
    exact digitChar_isDigit n
  | succ fuel ih =>
    intro n c hc
    rw [natToCharsGo] at hc
    split at hc
    · rcases List.mem_singleton.mp hc with rfl
      exact digitChar_isDigit n
    · rcases List.mem_append.mp hc with h | h
      · exact ih _ _ h
      · rcases List.mem_singleton.mp h with rfl
        exact digitChar_isDigit _

theorem natToChars_digits {n : Nat} {c : Char} (hc : c ∈ natToChars n) :
    c.isDigit = true :=
  natToCharsGo_digits n n c hc

theorem splitext_subset (p : List Char) :
    (∀ c ∈ (splitext p).1, c ∈ p) ∧ (∀ c ∈ (splitext p).2, c ∈ p) := by
  cases hd : rlast '.' p with
  | none =>
    simp only [splitext, hd]
    exact ⟨fun c hc => hc, fun c hc => by cases hc⟩
  | some d =>
    simp only [splitext, hd]
    constructor
    · intro c hc
      split at hc
      · split at hc
        · exact List.take_subset _ _ hc
        · exact hc
      · exact hc
    · intro c hc
      split at hc
      · split at hc
        · exact List.drop_subset _ _ hc
        · cases hc
      · cases hc

theorem save_upload_name_props {C : Cipher} {fuel : Nat} {f : UploadFile}
    {fs fs' : Store} {name : List Char}
    (h : save_upload C fuel f fs = (some name, fs')) :
    name ≠ [] ∧ name ≠ ['.'] ∧ name ≠ ['.', '.'] ∧ '/' ∉ name := by
  obtain ⟨hne, hfind, -⟩ := save_upload_eq h
  rcases findFreeName_shape hfind with rfl | ⟨k, hk, rfl⟩
  · refine ⟨hne, secure_filename_ne_dot _, secure_filename_ne_dotdot _, ?_⟩
    intro hmem
    exact absurd (secureKeep_of_mem_secure_filename hmem) (by decide)
  · refine ⟨List.append_ne_nil_of_right_ne_nil _ (by simp), ?_, ?_, ?_⟩
    · intro he
      have hu : '_' ∈ (splitext (secure_filename f.filename)).1 ++ '_' ::
          (natToChars k ++ (splitext (secure_filename f.filename)).2) := by simp
      rw [he] at hu
      simp at hu
    · intro he
      have hu : '_' ∈ (splitext (secure_filename f.filename)).1 ++ '_' ::
          (natToChars k ++ (splitext (secure_filename f.filename)).2) := by simp
      rw [he] at hu
      simp at hu
    · intro hmem
      rcases List.mem_append.mp hmem with hb | hc
      · exact absurd
          (secureKeep_of_mem_secure_filename ((splitext_subset _).1 _ hb))
          (by decide)
      · rcases List.mem_cons.mp hc with he | hc2
        · cases he
        · rcases List.mem_append.mp hc2 with hd | he
          · exact absurd (natToChars_digits hd) (by decide)
          · exact absurd
              (secureKeep_of_mem_secure_filename ((splitext_subset _).2 _ he))
              (by decide)

theorem normpath_eq_self {s : List Char} (h0 : s ≠ []) (h1 : s ≠ ['.'])
    (h2 : s ≠ ['.', '.']) (hs : '/' ∉ s) : normpath s = s := by
  have hpre : ∀ l : List Char, '/' ∈ l → l.isPrefixOf s = false := by
    intro l hl
    apply Bool.eq_false_iff.mpr
    intro hb
    exact hs ((List.isPrefixOf_iff_prefix.mp hb).subset hl)
  have hsplit : List.splitOn '/' s = [s] := by
    have : List.splitOn '/' s = List.splitOnP (fun c => c == '/') s := rfl
    rw [this]
    apply List.splitOnP_eq_single
    intro x hx
    simp only [beq_iff_eq]
    intro he
    exact hs (he ▸ hx)
  have hcomps : normComps 0 [] [s] = [s] := by
    rw [normComps, if_neg (by simp [h0, h1]), if_neg (by simpa using h2)]
    rfl
  have hp3 := hpre ['/', '/', '/'] (by decide)
  have hp2 := hpre ['/', '/'] (by decide)
  have hp1 := hpre ['/'] (by decide)
  have hint : List.intercalate ['/'] [s] = s := by simp [List.intercalate]
  simp only [normpath, if_neg h0, hp3, hp2, hp1, hsplit, hcomps,
    Bool.false_eq_true, if_false, hint, List.replicate, List.nil_append]

/-- C1 amended: the encrypt-then-store / fetch-then-decrypt round trip
returns the original bytes for every valid upload WHOSE RETURNED STORED
NAME does not contain `..` as a substring (names such as `a..b.png` are
stored but unretrievable, see the counterexample). -/
theorem C1_roundtrip_amended :
    ∀ (C : Cipher) (fuel : Nat) (f : UploadFile) (kind : List Char)
      (fs fs' : Store) (name : List Char),
      allowed_file f.filename kind = true →
      save_upload C fuel f fs = (some name, fs') →
      hasDotDot name = false →
      uploaded_file C fs' name = GetResult.ok f.content := by
  intro C fuel f kind fs fs' name hallow hsave hnd
  obtain ⟨h0, h1, h2, hs⟩ := save_upload_name_props hsave
  obtain ⟨-, -, hfs⟩ := save_upload_eq hsave
  have hnorm : normpath name = name := normpath_eq_self h0 h1 h2 hs
  rw [hfs]
  simp [uploaded_file, hnorm, hnd, fsLookup, C.decrypt_encrypt]

/-- Witness for the amended C1 at a concrete upload. -/
theorem C1_roundtrip_amended_witness :
    uploaded_file trivialCipher (save_upload trivialCipher 1 ⟨"a.png".data, [7]⟩ []).2
      "a.png".data = GetResult.ok [7] :=
  C1_roundtrip_amended trivialCipher 1 ⟨"a.png".data, [7]⟩ "image".data []
    (save_upload trivialCipher 1 ⟨"a.png".data, [7]⟩ []).2 "a.png".data
    (by decide) (by decide) (by decide)

theorem pair_sublist_of_mem {α : Type} {l : List α} {a b : α}
    (hne : a ≠ b) (ha : a ∈ l) (hb : b ∈ l) :
    [a, b].Sublist l ∨ [b, a].Sublist l := by
  induction l with
  | nil => cases ha
  | cons x xs ih =>
    by_cases hax : a = x
    · subst hax
      have hbxs : b ∈ xs := by
        rcases List.mem_cons.mp hb with h | h
        · exact absurd h.symm hne
        · exact h
      exact Or.inl (List.cons_sublist_cons.mpr (List.singleton_sublist.mpr hbxs))
    · by_cases hbx : b = x
      · subst hbx
        have haxs : a ∈ xs := by
          rcases List.mem_cons.mp ha with h | h
          · exact absurd h hax
          · exact h
        exact Or.inr (List.cons_sublist_cons.mpr (List.singleton_sublist.mpr haxs))
      · have ha' : a ∈ xs := by
          rcases List.mem_cons.mp ha with h | h
          · exact absurd h hax
          · exact h
        have hb' : b ∈ xs := by
          rcases List.mem_cons.mp hb with h | h
          · exact absurd h hbx
          · exact h
        rcases ih ha' hb' with h | h
        · exact Or.inl (h.cons x)
        · exact Or.inr (h.cons x)

theorem eq_of_both_pair_sublist {α : Type} {l : List α} {a b : α}
    (hnd : l.Nodup) (h1 : [a, b].Sublist l) (h2 : [b, a].Sublist l) : a = b := by
  induction l with
  | nil => cases h1
  | cons x xs ih =>
    have hx : x ∉ xs := (List.nodup_cons.mp hnd).1
    have hnd' : xs.Nodup := (List.nodup_cons.mp hnd).2
    cases h1 with
    | cons _ h1' =>
      cases h2 with
      | cons _ h2' => exact ih hnd' h1' h2'
      | cons₂ h2' =>
        exact absurd (h1'.subset (by simp)) hx
    | cons₂ h1' =>
      cases h2 with
      | cons _ h2' =>
        exact absurd (h2'.subset (by simp)) hx
      | cons₂ h2' => rfl

/-- C6: on a table held in insertion order (ids strictly increasing, the
rowid scan order), `ORDER BY position ASC` returns a permutation of the rows
that is sorted by position ascending with ties broken by insertion id
ascending. -/
theorem C6_list_ordered_deterministic :
    ∀ rows : List Row, rows.Pairwise (fun a b => a.id < b.id) →
      (list_ordered rows).Perm rows ∧
      (list_ordered rows).Pairwise
        (fun a b => a.pos < b.pos ∨ (a.pos = b.pos ∧ a.id < b.id)) := by
  intro rows hids
  have hnd : rows.Nodup :=
    hids.imp (fun {a b} h => fun he => absurd (he ▸ h) (lt_irrefl _))
  have hperm : (list_ordered rows).Perm rows := List.perm_insertionSort _ _
  refine ⟨hperm, ?_⟩
  have hnd' : (list_ordered rows).Nodup := hperm.symm.nodup hnd
  have hsorted : (list_ordered rows).Sorted posLe := List.sorted_insertionSort posLe rows
  rw [List.pairwise_iff_forall_sublist]
  intro a b hab
  have hle : a.pos ≤ b.pos := List.pairwise_iff_forall_sublist.mp hsorted hab
  rcases lt_or_eq_of_le hle with hlt | heq
  · exact Or.inl hlt
  · refine Or.inr ⟨heq, ?_⟩
    have hne : a ≠ b := by
      intro he
      subst he
      have hcnt := hab.count_le a
      rw [List.nodup_iff_count_le_one] at hnd'
      have := hnd' a
      simp [List.count_cons] at hcnt
      omega
    have ha : a ∈ rows := hperm.subset (hab.subset (by simp))
    have hb : b ∈ rows := hperm.subset (hab.subset (by simp))
    rcases pair_sublist_of_mem hne ha hb with hr | hr
    · exact List.pairwise_iff_forall_sublist.mp hids hr
    · exfalso
      have hpw : List.Pairwise posLe [b, a] := by
        constructor
        · intro x hx
          rcases List.mem_singleton.mp hx with rfl
          exact le_of_eq heq.symm
        · exact List.pairwise_singleton _ _
      have hba : [b, a].Sublist (list_ordered rows) :=
        List.sublist_insertionSort hpw hr
      exact hne (eq_of_both_pair_sublist hnd' hab hba)

/-- Witness for C6 at a concrete table with a position tie. -/
theorem C6_list_ordered_deterministic_witness :
    (list_ordered [{ id := 1, pos := 5 }, { id := 2, pos := 3 }, { id := 3, pos := 3 }]).Perm
      [{ id := 1, pos := 5 }, { id := 2, pos := 3 }, { id := 3, pos := 3 }] ∧
    (list_ordered [{ id := 1, pos := 5 }, { id := 2, pos := 3 }, { id := 3, pos := 3 }]).Pairwise
      (fun a b => a.pos < b.pos ∨ (a.pos = b.pos ∧ a.id < b.id)) :=
  C6_list_ordered_deterministic
    [{ id := 1, pos := 5 }, { id := 2, pos := 3 }, { id := 3, pos := 3 }]
    (by decide)

theorem applyOrder_eq_map (m : Nat → Row → Bool) (pairs : List (Nat × Nat))
    (rows : List Row) : applyOrder m pairs rows = rows.map (stepAll m pairs) := by
  induction pairs generalizing rows with
  | nil => simp [applyOrder, stepAll]
  | cons pi rest ih =>
    obtain ⟨p, i⟩ := pi
    show applyOrder m rest
        (rows.map fun r => if m i r then { r with pos := (p : Int) } else r)
      = _
    rw [ih, List.map_map]
    rfl

theorem stepAll_skip (m : Nat → Row → Bool) (scope : Row → Bool)
    (hm : ∀ i r, m i r = (decide (r.id = i) && scope r))
    (pairs : List (Nat × Nat)) (r : Row)
    (hr : scope r = false ∨ r.id ∉ pairs.map Prod.snd) :
    stepAll m pairs r = r := by
  induction pairs with
  | nil => rfl
  | cons pi rest ih =>
    obtain ⟨p, i⟩ := pi
    have hmf : m i r = false := by
      rw [hm]
      rcases hr with hs | hid
      · simp [hs]
      · have hne : ¬ r.id = i := by
          intro he
          exact hid (by simp [he])
        simp [hne]
    simp only [stepAll, hmf, Bool.false_eq_true, if_false]
    apply ih
    rcases hr with hs | hid
    · exact Or.inl hs
    · refine Or.inr fun hmem => hid ?_
      simp only [List.map_cons, List.mem_cons]
      exact Or.inr hmem

theorem stepAll_hit (m : Nat → Row → Bool) (scope : Row → Bool)
    (hm : ∀ i r, m i r = (decide (r.id = i) && scope r)) :
    ∀ (order : List Nat) (k : Nat) (r : Row), order.Nodup → r.id ∈ order →
      scope r = true →
      stepAll m (List.enumFrom k order) r
        = { r with pos := ((k + order.indexOf r.id : Nat) : Int) } := by
  intro order
  induction order with
  | nil => intro k r _ hmem; cases hmem
  | cons a rest ih =>
    intro k r hnd hmem hs
    show stepAll m ((k, a) :: List.enumFrom (k + 1) rest) r = _
    by_cases hid : r.id = a
    · have hmt : m a r = true := by rw [hm, hs]; simp [hid]
      simp only [stepAll, hmt, if_true]
      have hskip : stepAll m (List.enumFrom (k + 1) rest)
          { r with pos := ((k : Nat) : Int) } = { r with pos := ((k : Nat) : Int) } := by
        apply stepAll_skip m scope hm
        refine Or.inr ?_
        rw [List.enumFrom_map_snd]
        show ¬ r.id ∈ rest
        rw [hid]
        exact (List.nodup_cons.mp hnd).1
      rw [hskip, hid, List.indexOf_cons_self]
      rfl
    · have hmf : m a r = false := by rw [hm]; simp [hid]
      simp only [stepAll, hmf, Bool.false_eq_true, if_false]
      have hmem' : r.id ∈ rest := by
        rcases List.mem_cons.mp hmem with h | h
        · exact absurd h hid
        · exact h
      rw [ih (k + 1) r (List.nodup_cons.mp hnd).2 hmem' hs,
        List.indexOf_cons_ne _ (fun he => hid he.symm)]
      have harith : k + 1 + List.indexOf r.id rest
          = k + (List.indexOf r.id rest).succ := by omega
      exact congrArg (fun z : Nat => { r with pos := (z : Int) }) harith

theorem applyOrder_char (m : Nat → Row → Bool) (scope : Row → Bool)
    (hm : ∀ i r, m i r = (decide (r.id = i) && scope r))
    (order : List Nat) (hnd : order.Nodup) (rows : List Row) :
    applyOrder m order.enum rows = rows.map (fun r =>
      if r.id ∈ order ∧ scope r = true
      then { r with pos := ((order.indexOf r.id : Nat) : Int) } else r) := by
  rw [applyOrder_eq_map]
  apply List.map_congr_left
  intro r _
  by_cases hc : r.id ∈ order ∧ scope r = true
  · rw [if_pos hc, List.enum_eq_enumFrom]
    rw [stepAll_hit m scope hm order 0 r hnd hc.1 hc.2]
    simp
  · rw [if_neg hc]
    apply stepAll_skip m scope hm
    rw [List.enum_map_snd]
    by_cases hsc : scope r = true
    · exact Or.inr fun hmem => hc ⟨hmem, hsc⟩
    · exact Or.inl (Bool.eq_false_iff.mpr hsc)

theorem pairwise_indexOf_lt {l : List Nat} (h : l.Nodup) :
    l.Pairwise (fun x y => l.indexOf x < l.indexOf y) := by
  induction l with
  | nil => constructor
  | cons a t ih =>
    have ha := (List.nodup_cons.mp h).1
    have ht := (List.nodup_cons.mp h).2
    constructor
    · intro b hb
      have hba : a ≠ b := fun he => ha (he ▸ hb)
      rw [List.indexOf_cons_self, List.indexOf_cons_ne _ hba]
      exact Nat.succ_pos _
    · refine (ih ht).imp_of_mem ?_
      intro x y hx hy hlt
      have hxa : a ≠ x := fun he => ha (he ▸ hx)
      have hya : a ≠ y := fun he => ha (he ▸ hy)
      rw [List.indexOf_cons_ne _ hxa, List.indexOf_cons_ne _ hya]
      exact Nat.succ_lt_succ hlt

theorem reorder_list_ordered (scope : Row → Bool)
    (hscope : ∀ (r : Row) (p : Int), scope { r with pos := p } = scope r)
    (order : List Nat) (rows : List Row)
    (hnd : order.Nodup) (hids : (rows.map Row.id).Nodup)
    (hall : ∀ i ∈ order, ∃ r ∈ rows, r.id = i ∧ scope r = true) :
    ((list_ordered ((rows.map (fun r =>
          if r.id ∈ order ∧ scope r = true
          then { r with pos := ((order.indexOf r.id : Nat) : Int) } else r)).filter
        scope)).map Row.id).filter (fun i => decide (i ∈ order)) = order := by
  set g : Row → Row := fun r =>
    if r.id ∈ order ∧ scope r = true
    then { r with pos := ((order.indexOf r.id : Nat) : Int) } else r with hg
  have hgid : ∀ r, (g r).id = r.id := by
    intro r
    by_cases h : r.id ∈ order ∧ scope r = true <;> simp [hg, h]
  have hgscope : ∀ r, scope (g r) = scope r := by
    intro r
    by_cases h : r.id ∈ order ∧ scope r = true
    · simp only [hg, if_pos h]
      exact hscope r _
    · simp [hg, h]
  have hfilter : (rows.map g).filter scope = (rows.filter scope).map g := by
    rw [List.filter_map]
    congr 1
    exact List.filter_congr (fun x _ => hgscope x)
  rw [hfilter]
  set S := rows.filter scope with hS
  set L := list_ordered (S.map g) with hL
  have hsort : L.Pairwise posLe := List.sorted_insertionSort posLe (S.map g)
  have hperm : L.Perm (S.map g) := List.perm_insertionSort posLe (S.map g)
  rw [List.filter_map]
  set q : Row → Bool := fun r => decide (r.id ∈ order) with hq
  show ((L.filter q).map Row.id) = order
  have hqg : ∀ r, q (g r) = q r := by
    intro r
    simp [hq, hgid]
  have hpermF : (L.filter q).Perm ((S.map g).filter q) := hperm.filter q
  have hmapfil : (S.map g).filter q = (S.filter q).map g := by
    rw [List.filter_map]
    congr 1
    exact List.filter_congr (fun x _ => hqg x)
  set T := S.filter q with hT
  have hpermIds : ((L.filter q).map Row.id).Perm (T.map Row.id) := by
    have h1 := hpermF.map Row.id
    rw [hmapfil, List.map_map] at h1
    have h2 : T.map (Row.id ∘ g) = T.map Row.id :=
      List.map_congr_left (fun r _ => hgid r)
    rw [h2] at h1
    exact h1
  have hTsubRows : T.Sublist rows := (List.filter_sublist _).trans (List.filter_sublist _)
  have hTnodup : (T.map Row.id).Nodup :=
    List.Nodup.sublist (hTsubRows.map Row.id) hids
  have hpermT : (T.map Row.id).Perm order := by
    rw [List.perm_ext_iff_of_nodup hTnodup hnd]
    intro x
    constructor
    · intro hx
      rcases List.mem_map.mp hx with ⟨r, hr, rfl⟩
      have hqr := (List.mem_filter.mp hr).2
      simpa [hq] using hqr
    · intro hx
      obtain ⟨r, hrrows, hrid, hrscope⟩ := hall x hx
      refine List.mem_map.mpr ⟨r, ?_, hrid⟩
      refine List.mem_filter.mpr ⟨List.mem_filter.mpr ⟨hrrows, hrscope⟩, ?_⟩
      simp [hq, hrid, hx]
  have hpermFO : ((L.filter q).map Row.id).Perm order := hpermIds.trans hpermT
  have hposF : ∀ r ∈ L.filter q,
      r.id ∈ order ∧ r.pos = ((order.indexOf r.id : Nat) : Int) := by
    intro r hr
    have hmemq := (List.mem_filter.mp hr).2
    have hidm : r.id ∈ order := by simpa [hq] using hmemq
    have hrL : r ∈ L := (List.mem_filter.mp hr).1
    have hrSg : r ∈ S.map g := hperm.subset hrL
    rcases List.mem_map.mp hrSg with ⟨r0, hr0S, rfl⟩
    have hsc0 : scope r0 = true := List.of_mem_filter hr0S
    rw [hgid r0] at hidm
    refine ⟨by rw [hgid r0]; exact hidm, ?_⟩
    simp only [hg]
    rw [if_pos (⟨hidm, hsc0⟩ : r0.id ∈ order ∧ scope r0 = true)]
  have hFnodupIds : ((L.filter q).map Row.id).Nodup := hpermFO.symm.nodup hnd
  have hFpairneq : (L.filter q).Pairwise (fun a b => a.id ≠ b.id) :=
    List.pairwise_map.mp hFnodupIds
  have hFposLe : (L.filter q).Pairwise posLe := hsort.filter q
  have hGF : (L.filter q).Pairwise
      (fun a b => order.indexOf a.id < order.indexOf b.id) := by
    rw [List.pairwise_iff_forall_sublist]
    intro a b hab
    have ha := hab.subset (by simp : a ∈ [a, b])
    have hb := hab.subset (by simp : b ∈ [a, b])
    have hle : a.pos ≤ b.pos := List.pairwise_iff_forall_sublist.mp hFposLe hab
    have hne : a.id ≠ b.id := List.pairwise_iff_forall_sublist.mp hFpairneq hab
    obtain ⟨haid, hapos⟩ := hposF a ha
    obtain ⟨hbid, hbpos⟩ := hposF b hb
    rw [hapos, hbpos] at hle
    have hleN : order.indexOf a.id ≤ order.indexOf b.id := by exact_mod_cast hle
    have hneIdx : order.indexOf a.id ≠ order.indexOf b.id := by
      intro he
      exact hne ((List.indexOf_inj haid hbid).mp he)
    omega
  have hGmap : ((L.filter q).map Row.id).Pairwise
      (fun x y => order.indexOf x < order.indexOf y) :=
    List.pairwise_map.mpr hGF
  have hH := pairwise_indexOf_lt hnd
  haveI : IsAntisymm Nat (fun x y => order.indexOf x < order.indexOf y) :=
    ⟨fun a b h1 h2 => absurd (h1.trans h2) (lt_irrefl _)⟩
  exact List.eq_of_perm_of_sorted hpermFO hGmap hH

theorem rowScope_pos_invariant (typ : List Char) (album_id : Option Nat)
    (r : Row) (p : Int) :
    rowScope typ album_id { r with pos := p } = rowScope typ album_id r := by
  simp only [rowScope]

/-- C8: reordering tracks without an album scope fails (InvalidScope) and
changes nothing; with a valid scope, `api_reorder` succeeds and sets
position = submitted index for each listed id in the scope, leaving every
other row untouched, so that a subsequent position-ordered fetch of the
scope yields the touched ids in exactly the submitted order. -/
theorem C8_reorder :
    ∀ (order : List Nat) (album_id : Option Nat) (st : AppState) (typ : List Char),
      (api_reorder "tracks".data order none st
        = (ReorderOutcome.albumIdRequired, st)) ∧
      (typ ∈ ["albums".data, "tracks".data, "videos".data, "media".data,
          "homepage_layout".data] →
       ¬ (typ = "tracks".data ∧ album_id = none) →
       order.Nodup →
       (api_reorder typ order album_id st).1 = ReorderOutcome.success ∧
       tableOf typ (api_reorder typ order album_id st).2.db
         = (tableOf typ st.db).map (fun r =>
             if r.id ∈ order ∧ rowScope typ album_id r = true
             then { r with pos := ((order.indexOf r.id : Nat) : Int) } else r) ∧
       (((tableOf typ st.db).map Row.id).Nodup →
        (∀ i ∈ order, ∃ r ∈ tableOf typ st.db,
            r.id = i ∧ rowScope typ album_id r = true) →
        ((list_ordered (scopedRows typ album_id
              (api_reorder typ order album_id st).2.db)).map Row.id).filter
            (fun i => decide (i ∈ order)) = order)) := by
  intro order album_id st typ
  constructor
  · rfl
  · intro hty htrk hnd
    have hscope := rowScope_pos_invariant typ album_id
    simp only [List.mem_cons, List.mem_singleton, List.not_mem_nil, or_false] at hty
    rcases hty with rfl | rfl | rfl | rfl | rfl
    · -- albums
      have hm : ∀ (i : Nat) (r : Row),
          decide (r.id = i) = (decide (r.id = i) && rowScope "albums".data album_id r) := by
        intro i r
        simp only [rowScope, if_neg (by decide : ¬ ("albums".data = "tracks".data)),
          Bool.and_true]
      have hchar := applyOrder_char (fun i r => decide (r.id = i))
        (rowScope "albums".data album_id) hm order hnd st.db.albums
      refine ⟨rfl, ?_, ?_⟩
      · show applyOrder (fun i r => decide (r.id = i)) order.enum st.db.albums = _
        exact hchar
      · intro hids hall
        show ((list_ordered ((applyOrder (fun i r => decide (r.id = i)) order.enum
              st.db.albums).filter (rowScope "albums".data album_id))).map
            Row.id).filter (fun i => decide (i ∈ order)) = order
        rw [hchar]
        exact reorder_list_ordered _ hscope order st.db.albums hnd hids hall
    · -- tracks
      rcases album_id with _ | a
      · exact absurd ⟨by decide, rfl⟩ htrk
      · have hm : ∀ (i : Nat) (r : Row),
            decide (r.id = i ∧ r.album_id = some a)
              = (decide (r.id = i) && rowScope "tracks".data (some a) r) := by
          intro i r
          simp [rowScope, Bool.decide_and]
        have hchar := applyOrder_char
          (fun i r => decide (r.id = i ∧ r.album_id = some a))
          (rowScope "tracks".data (some a)) hm order hnd st.db.tracks
        refine ⟨rfl, ?_, ?_⟩
        · show applyOrder (fun i r => decide (r.id = i ∧ r.album_id = some a))
              order.enum st.db.tracks = _
          exact hchar
        · intro hids hall
          show ((list_ordered ((applyOrder
                (fun i r => decide (r.id = i ∧ r.album_id = some a)) order.enum
                st.db.tracks).filter (rowScope "tracks".data (some a)))).map
              Row.id).filter (fun i => decide (i ∈ order)) = order
          rw [hchar]
          exact reorder_list_ordered _ (rowScope_pos_invariant _ _) order
            st.db.tracks hnd hids hall
    · -- videos
      have hm : ∀ (i : Nat) (r : Row),
          decide (r.id = i) = (decide (r.id = i) && rowScope "videos".data album_id r) := by
        intro i r
        simp only [rowScope, if_neg (by decide : ¬ ("videos".data = "tracks".data)),
          Bool.and_true]
      have hchar := applyOrder_char (fun i r => decide (r.id = i))
        (rowScope "videos".data album_id) hm order hnd st.db.videos
      refine ⟨rfl, ?_, ?_⟩
      · show applyOrder (fun i r => decide (r.id = i)) order.enum st.db.videos = _
        exact hchar
      · intro hids hall
        show ((list_ordered ((applyOrder (fun i r => decide (r.id = i)) order.enum
              st.db.videos).filter (rowScope "videos".data album_id))).map
            Row.id).filter (fun i => decide (i ∈ order)) = order
        rw [hchar]
        exact reorder_list_ordered _ hscope order st.db.videos hnd hids hall
    · -- media
      have hm : ∀ (i : Nat) (r : Row),
          decide (r.id = i) = (decide (r.id = i) && rowScope "media".data album_id r) := by
        intro i r
        simp only [rowScope, if_neg (by decide : ¬ ("media".data = "tracks".data)),
          Bool.and_true]
      have hchar := applyOrder_char (fun i r => decide (r.id = i))
        (rowScope "media".data album_id) hm order hnd st.db.media
      refine ⟨rfl, ?_, ?_⟩
      · show applyOrder (fun i r => decide (r.id = i)) order.enum st.db.media = _
        exact hchar
      · intro hids hall
        show ((list_ordered ((applyOrder (fun i r => decide (r.id = i)) order.enum
              st.db.media).filter (rowScope "media".data album_id))).map
            Row.id).filter (fun i => decide (i ∈ order)) = order
        rw [hchar]
        exact reorder_list_ordered _ hscope order st.db.media hnd hids hall
    · -- homepage_layout
      have hm : ∀ (i : Nat) (r : Row),
          decide (r.id = i)
            = (decide (r.id = i) && rowScope "homepage_layout".data album_id r) := by
        intro i r
        simp only [rowScope,
          if_neg (by decide : ¬ ("homepage_layout".data = "tracks".data)),
          Bool.and_true]
      have hchar := applyOrder_char (fun i r => decide (r.id = i))
        (rowScope "homepage_layout".data album_id) hm order hnd st.db.layout
      refine ⟨rfl, ?_, ?_⟩
      · show applyOrder (fun i r => decide (r.id = i)) order.enum st.db.layout = _
        exact hchar
      · intro hids hall
        show ((list_ordered ((applyOrder (fun i r => decide (r.id = i)) order.enum
              st.db.layout).filter (rowScope "homepage_layout".data album_id))).map
            Row.id).filter (fun i => decide (i ∈ order)) = order
        rw [hchar]
        exact reorder_list_ordered _ hscope order st.db.layout hnd hids hall

/-- Witness for C8: a three-track album reordered as `[3, 1, 2]` (the spec's
own example), plus the missing-scope failure. -/
theorem C8_reorder_witness :
    (api_reorder "tracks".data [3, 1, 2] none c8St
      = (ReorderOutcome.albumIdRequired, c8St)) ∧
    ((list_ordered (scopedRows "tracks".data (some 1)
        (api_reorder "tracks".data [3, 1, 2] (some 1) c8St).2.db)).map Row.id).filter
      (fun i => decide (i ∈ [3, 1, 2])) = [3, 1, 2] :=
  ⟨(C8_reorder [3, 1, 2] (some 1) c8St "tracks".data).1,
   ((C8_reorder [3, 1, 2] (some 1) c8St "tracks".data).2 (by decide) (by decide)
      (by decide)).2.2 (by decide) (by decide)⟩
